import Mathlib

/-!
Verification of the GophKeeper synchronization core against its source.

The definitions below are a shallow embedding of the Go source:

* `Secret` embeds `internal/models.Secret`.
* `Row` embeds one row of the `secrets` table
  (`id TEXT PRIMARY KEY, user_login, type, data BYTEA, comment, version BIGINT,
  deleted BOOLEAN NOT NULL DEFAULT FALSE`); a database is the list of its rows.
* `getMaxVersion`, `getSecretsByUser`, `deleteSecrets`, `upsertIfNewer`,
  `getNewerSecrets` embed the methods of `PostgresSyncRepository`
  (`internal/repository`, sync repository file); the SQL each method runs is
  mirrored clause by clause, including every `deleted = false` filter and the
  `ON CONFLICT (id) DO UPDATE` clause of the upsert (which does not update
  `user_login` and keys on `id` alone, `id` being the table's primary key).
* `Sync` embeds `SyncService.Sync` (`internal/service`, sync service file).

`int64` versions are embedded as `Int` (no arithmetic is performed on them,
only comparisons, so overflow cannot occur).
-/

/-- Embeds `models.Secret`: id, type, data, comment, version (int64), deleted. -/
structure Secret where
  id : String
  type : String
  data : String
  comment : String
  version : Int
  deleted : Bool
deriving DecidableEq, Repr

/-- One row of the `secrets` table. `id` is the primary key; `user_login`
references `users(login)`. -/
structure Row where
  id : String
  userLogin : String
  type : String
  data : String
  comment : String
  version : Int
  deleted : Bool
deriving DecidableEq, Repr

/-- The `secrets` table: its list of rows. -/
abbrev DB := List Row

/-- Reading a row back as a `models.Secret`, as the repository's
`rows.Scan(&sec.ID, &sec.Type, &sec.Data, &sec.Comment, &sec.Version,
&sec.Deleted)` does. -/
def toSecret (r : Row) : Secret :=
  ⟨r.id, r.type, r.data, r.comment, r.version, r.deleted⟩

/-- The rows selected by `WHERE user_login = $1 AND deleted = false`, the
filter shared by `GetMaxVersion`, `GetSecretsByUser` and `GetNewerSecrets`. -/
def liveRows (db : DB) (u : String) : List Row :=
  db.filter (fun r => r.userLogin == u && !r.deleted)

/-- Embeds `PostgresSyncRepository.GetMaxVersion`:
`SELECT COALESCE(MAX(version), 0) FROM secrets WHERE user_login = $1 AND
deleted = false`. `COALESCE` applies only when no row matches. -/
def getMaxVersion (db : DB) (u : String) : Int :=
  match (liveRows db u).map (fun r => r.version) with
  | [] => 0
  | v :: vs => vs.foldl max v

/-- Embeds `PostgresSyncRepository.GetSecretsByUser`:
`SELECT id, type, data, comment, version, deleted FROM secrets WHERE
user_login = $1 AND deleted = false`. -/
def getSecretsByUser (db : DB) (u : String) : List Secret :=
  (liveRows db u).map toSecret

/-- Embeds `PostgresSyncRepository.DeleteSecrets`:
`UPDATE secrets SET deleted = true WHERE user_login = $1 AND id = ANY($2)`. -/
def deleteSecrets (db : DB) (u : String) (ids : List String) : DB :=
  db.map (fun r => if r.userLogin = u ∧ r.id ∈ ids then { r with deleted := true } else r)

/-- The version check inside `UpsertIfNewer`:
`SELECT version FROM secrets WHERE id = $1 AND user_login = $2 AND deleted =
false` — `none` models `sql.ErrNoRows`. Note the `deleted = false` clause:
a tombstoned row is invisible to this check. -/
def lookupLiveVersion (db : DB) (u : String) (id : String) : Option Int :=
  (db.find? (fun r => r.id == id && r.userLogin == u && !r.deleted)).map (fun r => r.version)

/-- The write inside `UpsertIfNewer`:
`INSERT INTO secrets (id, user_login, type, data, comment, version, deleted)
VALUES ($1, $2, $3, $4, $5, $6, false) ON CONFLICT (id) DO UPDATE SET type =
EXCLUDED.type, data = EXCLUDED.data, comment = EXCLUDED.comment, version =
EXCLUDED.version, deleted = false`. The conflict target is the primary key
`id`; on conflict `user_login` is not in the `SET` list, so it is kept. -/
def updRow (sec : Secret) (r : Row) : Row :=
  if r.id = sec.id then
    { r with type := sec.type, data := sec.data, comment := sec.comment,
             version := sec.version, deleted := false }
  else r

def upsertRow (db : DB) (u : String) (sec : Secret) : DB :=
  if db.any (fun r => r.id == sec.id) then db.map (updRow sec)
  else db ++ [⟨sec.id, u, sec.type, sec.data, sec.comment, sec.version, false⟩]

/-- One iteration of the loop in `UpsertIfNewer`: skip when a live row exists
whose version is `>=` the incoming one (`existingVersion >= sec.Version`),
otherwise write and record the id as updated. -/
def upsertStep (u : String) (acc : DB × List String × List String) (sec : Secret) :
    DB × List String × List String :=
  match lookupLiveVersion acc.1 u sec.id with
  | some v =>
    if sec.version ≤ v then (acc.1, acc.2.1, acc.2.2 ++ [sec.id])
    else (upsertRow acc.1 u sec, acc.2.1 ++ [sec.id], acc.2.2)
  | none => (upsertRow acc.1 u sec, acc.2.1 ++ [sec.id], acc.2.2)

/-- Embeds `PostgresSyncRepository.UpsertIfNewer`: the loop over the incoming
secrets, returning the final table and the `updated` and `skipped` id lists. -/
def upsertIfNewer (db : DB) (u : String) (secrets : List Secret) :
    DB × List String × List String :=
  secrets.foldl (upsertStep u) (db, [], [])

/-- The client's `versions map[string]int64`, embedded as an association
list; `lookupVer` models the map lookup `clientVer, ok := versions[sec.ID]`. -/
def lookupVer (kv : List (String × Int)) (id : String) : Option Int :=
  (kv.find? (fun p => p.1 == id)).map (fun p => p.2)

/-- Embeds `PostgresSyncRepository.GetNewerSecrets`: scans the owner's live rows
(`WHERE user_login = $1 AND deleted = false`) and keeps a row when
`clientVer, ok := versions[sec.ID]; !ok || sec.Version > clientVer`. -/
def getNewerSecrets (db : DB) (u : String) (versions : List (String × Int)) : List Secret :=
  ((liveRows db u).filter (fun r =>
    match lookupVer versions r.id with
    | none => true
    | some cv => decide (cv < r.version))).map toSecret

/-- The map `SyncService.Sync` returns:
`{"version": ..., "updated": ..., "skipped": ..., "secrets": ...}`. -/
structure SyncResult where
  version : Int
  updated : List String
  skipped : List String
  secrets : List Secret
deriving DecidableEq, Repr

/-- Embeds `SyncService.Sync`: partition the incoming secrets into tombstones and
live writes, apply `DeleteSecrets` then `UpsertIfNewer` (each only when its
batch is non-empty), then read `GetNewerSecrets` and `GetMaxVersion` from the
resulting table. Returns the table after the writes and the result map. -/
def Sync (db : DB) (u : String) (secrets : List Secret) (clientVersions : List (String × Int)) :
    DB × SyncResult :=
  let toDelete := (secrets.filter (fun s => s.deleted)).map (fun s => s.id)
  let toUpsert := secrets.filter (fun s => !s.deleted)
  let db1 := if toDelete.isEmpty then db else deleteSecrets db u toDelete
  let r := if toUpsert.isEmpty then (db1, [], []) else upsertIfNewer db1 u toUpsert
  let newer := getNewerSecrets r.1 u clientVersions
  let version := getMaxVersion r.1 u
  (r.1, ⟨version, r.2.1, r.2.2, newer⟩)

/-- The version stored in the table for `(owner, id)`, tombstoned or live:
the first row matching both, read without the `deleted` filter. -/
def storedVersion (db : DB) (u : String) (id : String) : Option Int :=
  (db.find? (fun r => r.id == id && r.userLogin == u)).map (fun r => r.version)

/-- The table holds at most one row per `id` (its primary key). -/
def uniqueIds (db : DB) : Prop :=
  (db.map (fun r => r.id)).Nodup

instance (db : DB) : Decidable (uniqueIds db) := by
  unfold uniqueIds; infer_instance

/-- Every `(owner, id)` row of the table, if any, is live. -/
def liveOrAbsent (db : DB) (u : String) (id : String) : Prop :=
  ∀ r ∈ db, r.id = id → r.userLogin = u → r.deleted = false

instance (db : DB) (u id : String) : Decidable (liveOrAbsent db u id) := by
  unfold liveOrAbsent; infer_instance

/-- Order on stored versions with `none` (no row) below everything. -/
def optVerLE : Option Int → Option Int → Prop
  | none, _ => True
  | some _, none => False
  | some a, some b => a ≤ b

/-- A sequence of single-secret `UpsertIfNewer` calls. -/
def applyUpserts (db : DB) (u : String) (calls : List Secret) : DB :=
  calls.foldl (fun d s => (upsertIfNewer d u [s]).1) db

/-!
Mutual-TLS middleware, `internal/middleware/certauth.go`.
-/

/-- A peer certificate as the middleware reads it: only its subject CN. -/
structure Cert where
  commonName : String
deriving DecidableEq, Repr

/-- An HTTP request as `CertAuth` inspects it: the URL path, the TLS state
(`none` = `r.TLS == nil`, otherwise the peer-certificate list), and the
request context's `userKey` value. -/
structure Request where
  path : String
  tls : Option (List Cert)
  ctxUser : Option String
deriving DecidableEq, Repr

/-- Embeds `CertAuth`: the `/api/register` path passes through untouched; otherwise a request
with no TLS state or no peer certificate is answered with
`http.Error(w, "no client certificate provided", http.StatusUnauthorized)`
(`Sum.inl`), and any other request is handed to `next` with the first peer
certificate's CN stored under `userKey` in the context (`Sum.inr`). -/
def certAuth {β : Type} (next : Request → β) (r : Request) : Sum (Nat × String) β :=
  if r.path = "/api/register" then Sum.inr (next r)
  else
    match r.tls with
    | none => Sum.inl (401, "no client certificate provided")
    | some certs =>
      match certs with
      | [] => Sum.inl (401, "no client certificate provided")
      | c :: _ => Sum.inr (next { r with ctxUser := some c.commonName })

/-- Embeds `GetUserIDFromContext`: the `userKey` context value, or `""` if absent. -/
def getUserIDFromContext (ctxUser : Option String) : String :=
  match ctxUser with
  | some s => s
  | none => ""

/-!
Leaf-certificate issuance, `internal/certgen/certgen.go`.
`GenerateUserCertificate` builds an `x509.Certificate` template from the
requested CN and the current time; key generation, serial-number drawing,
signing and PEM encoding are the crypto library's work and carry none of the
claimed fields. Times are in seconds.
-/

inductive KeyUsage where
  | digitalSignature
  | keyEncipherment
deriving DecidableEq, Repr

inductive ExtKeyUsage where
  | clientAuth
  | serverAuth
deriving DecidableEq, Repr

structure CertTemplate where
  commonName : String
  notBefore : Int
  notAfter : Int
  keyUsage : List KeyUsage
  extKeyUsage : List ExtKeyUsage
deriving DecidableEq, Repr

/-- The template `GenerateUserCertificate` fills in:
`Subject.CommonName = commonName`, `NotBefore = now - 1 minute`,
`NotAfter = now + 365 * 24h`, `KeyUsage = DigitalSignature | KeyEncipherment`,
`ExtKeyUsage = [ClientAuth]`. -/
def generateUserCertTemplate (commonName : String) (now : Int) : CertTemplate :=
  { commonName := commonName
    notBefore := now - 60
    notAfter := now + 365 * 24 * 60 * 60
    keyUsage := [KeyUsage.digitalSignature, KeyUsage.keyEncipherment]
    extKeyUsage := [ExtKeyUsage.clientAuth] }

/-!
Client local cache, `internal/client/storage` (the tombstone-aware
`LocalStorage` variant whose `Edit` seals with a fresh nonce prefixed to the
ciphertext and whose `List` strips it off again). Bytes are `Nat`s below 256;
a Go `string` is its byte sequence.
-/

/-- The `cipher.AEAD` interface as the storage code consumes it. The Go code
is generic over any implementation; `Seal nonce plain` is the ciphertext
`Seal` appends to its `dst` argument, `Open` returns `none` on failure. -/
structure AEAD where
  nonceSize : Nat
  Seal : List Nat → List Nat → List Nat
  Open : List Nat → List Nat → Option (List Nat)

/-- The `base64.StdEncoding` alphabet: sextet to ASCII code. -/
def b64chr (s : Nat) : Nat :=
  if s < 26 then 65 + s
  else if s < 52 then 71 + s
  else if s < 62 then s - 4
  else if s = 62 then 43
  else 47

/-- ASCII code back to sextet; `none` for a byte outside the alphabet
(the pad `=` 61 included). -/
def b64chrDec (c : Nat) : Option Nat :=
  if 65 ≤ c ∧ c ≤ 90 then some (c - 65)
  else if 97 ≤ c ∧ c ≤ 122 then some (c - 71)
  else if 48 ≤ c ∧ c ≤ 57 then some (c + 4)
  else if c = 43 then some 62
  else if c = 47 then some 63
  else none

/-- Embeds `base64.StdEncoding.EncodeToString` over bytes: three bytes to four
alphabet characters, with `=` (61) padding for a final group of one or two. -/
def b64encode : List Nat → List Nat
  | [] => []
  | [a] => [b64chr (a / 4), b64chr (a % 4 * 16), 61, 61]
  | [a, b] => [b64chr (a / 4), b64chr (a % 4 * 16 + b / 16), b64chr (b % 16 * 4), 61]
  | a :: b :: c :: rest =>
    b64chr (a / 4) :: b64chr (a % 4 * 16 + b / 16) :: b64chr (b % 16 * 4 + c / 64) ::
      b64chr (c % 64) :: b64encode rest

/-- Embeds `base64.StdEncoding.DecodeString`: four characters back to three bytes,
the final group possibly padded. -/
def b64decode : List Nat → Option (List Nat)
  | [] => some []
  | c1 :: c2 :: c3 :: c4 :: rest =>
    if c3 = 61 then
      if c4 = 61 ∧ rest = [] then
        match b64chrDec c1, b64chrDec c2 with
        | some s1, some s2 => some [s1 * 4 + s2 / 16]
        | _, _ => none
      else none
    else if c4 = 61 then
      if rest = [] then
        match b64chrDec c1, b64chrDec c2, b64chrDec c3 with
        | some s1, some s2, some s3 => some [s1 * 4 + s2 / 16, s2 % 16 * 16 + s3 / 4]
        | _, _, _ => none
      else none
    else
      match b64chrDec c1, b64chrDec c2, b64chrDec c3, b64chrDec c4, b64decode rest with
      | some s1, some s2, some s3, some s4, some tail =>
        some ((s1 * 4 + s2 / 16) :: (s2 % 16 * 16 + s3 / 4) :: (s3 % 4 * 64 + s4) :: tail)
      | _, _, _, _, _ => none
  | _ => none

/-- The client-side secret record as the storage file holds it; `data` is the
base64 text of the encrypted payload (a Go string, i.e. bytes). -/
structure CSecret where
  id : String
  type : String
  data : List Nat
  comment : String
  version : Int
  deleted : Bool
deriving DecidableEq, Repr

/-- Embeds `LocalStorage`: the secrets array, the version counter, and the
`deleted map[string]bool` index (the set of ids mapped to `true`). -/
structure LocalStorage where
  secrets : List CSecret
  version : Int
  deletedIdx : List String
deriving DecidableEq, Repr

/-- The `ls.deleted[id]` map lookup. -/
def deletedLookup (idx : List String) (id : String) : Bool :=
  idx.contains id

/-- The loop body of `LocalStorage.Edit`: skip entries with
`sec.ID != id || sec.Deleted || ls.deleted[id]`; at the first match, seal
`newData` with the fresh `nonce` (`ct := aead.Seal(nonce, nonce, newData, nil)`
prefixes the nonce), base64 it into `Data`, replace `Comment`, set `Version`
to the current time, and stop. `none` models `Edit` returning `false`. -/
def editLoop (idx : List String) (id : String) (newData : List Nat)
    (newComment : String) (A : AEAD) (nonce : List Nat) (now : Int) :
    List CSecret → Option (List CSecret)
  | [] => none
  | sec :: rest =>
    if sec.id ≠ id ∨ sec.deleted = true ∨ deletedLookup idx id = true then
      (editLoop idx id newData newComment A nonce now rest).map (fun t => sec :: t)
    else
      some ({ sec with
                data := b64encode (nonce ++ A.Seal nonce newData)
                comment := newComment
                version := now } :: rest)

/-- Embeds `LocalStorage.Edit` (the nonce-prefixing variant). -/
def LocalStorage.Edit (ls : LocalStorage) (id : String) (newData : List Nat)
    (newComment : String) (A : AEAD) (nonce : List Nat) (now : Int) :
    Option LocalStorage :=
  (editLoop ls.deletedIdx id newData newComment A nonce now ls.secrets).map
    (fun secs => { ls with secrets := secs })

/-- One line of `LocalStorage.List` output. -/
inductive ListEntry where
  | ok : String → String → String → List Nat → Int → ListEntry
  | decodeError : String → ListEntry
  | decryptError : String → ListEntry
deriving DecidableEq, Repr

/-- What `LocalStorage.List` prints for one entry: skip tombstones
(`s.Deleted || ls.deleted[s.ID]`), report a base64 failure or a too-short
ciphertext as a decode error, report an `aead.Open` failure as a decryption
error, otherwise print the decrypted plaintext. -/
def renderSecret (idx : List String) (A : AEAD) (sec : CSecret) : Option ListEntry :=
  if sec.deleted = true ∨ deletedLookup idx sec.id = true then none
  else
    match b64decode sec.data with
    | none => some (ListEntry.decodeError sec.id)
    | some cipherData =>
      if cipherData.length < A.nonceSize then some (ListEntry.decodeError sec.id)
      else
        match A.Open (cipherData.take A.nonceSize) (cipherData.drop A.nonceSize) with
        | none => some (ListEntry.decryptError sec.id)
        | some plain => some (ListEntry.ok sec.id sec.type sec.comment plain sec.version)

/-- Embeds `LocalStorage.List` (the nonce-stripping variant): the rendered lines. -/
def LocalStorage.list (ls : LocalStorage) (A : AEAD) : List ListEntry :=
  ls.secrets.filterMap (renderSecret ls.deletedIdx A)

/-!
Registration, `internal/repository/auth.go` and the HTTP register handler.
The `users` table (`login TEXT PRIMARY KEY`) is its list of logins.
-/

/-- Outcome of `db.ExecContext` for the insert, as `RegisterUser` inspects
it: success, a `*pq.Error` with its code, or some other error. -/
inductive ExecResult where
  | ok
  | pgError (code : String)
  | otherError (msg : String)
deriving DecidableEq, Repr

/-- The `INSERT INTO users (login) VALUES ($1)` statement against the `users` table:
a duplicate login violates the primary key (PostgreSQL error `23505`) and
leaves the table unchanged. -/
def usersInsert (users : List String) (login : String) : ExecResult × List String :=
  if users.contains login then (ExecResult.pgError "23505", users)
  else (ExecResult.ok, users ++ [login])

/-- The error mapping in `PostgresAuthRepository.RegisterUser`: a `pq.Error`
with code `23505` (duplicate key) is swallowed and `nil` is returned; any
other error is wrapped as `insert user: ...`. -/
def registerUserErr : ExecResult → Option String
  | ExecResult.ok => none
  | ExecResult.pgError code =>
    if code = "23505" then none else some ("insert user: pq: " ++ code)
  | ExecResult.otherError msg => some ("insert user: " ++ msg)

/-- Embeds `PostgresAuthRepository.RegisterUser`: run the insert, map its error. -/
def registerUser (users : List String) (login : String) : Option String × List String :=
  let r := usersInsert users login
  (registerUserErr r.1, r.2)

/-- Embeds `PostgresAuthRepository.UserExists`:
`SELECT EXISTS(SELECT 1 FROM users WHERE login = $1)`. -/
def userExists (users : List String) (login : String) : Bool :=
  users.contains login

/-- What `AuthHandler.Register` writes back. -/
inductive RegisterResult where
  | badRequest
  | internalError (msg : String)
  | conflict
  | success (cert : CertTemplate)
deriving DecidableEq, Repr

/-- Embeds `AuthHandler.Register`: reject an empty login, reject an existing login
with 409 before any certificate work, fail if the CA cannot be loaded
(`caOk = false`), otherwise issue the certificate, save the user and return
the certificate. -/
def register (users : List String) (login : String) (caOk : Bool) (now : Int) :
    RegisterResult × List String :=
  if login = "" then (RegisterResult.badRequest, users)
  else if userExists users login then (RegisterResult.conflict, users)
  else if caOk = false then (RegisterResult.internalError "failed to load CA", users)
  else
    let cert := generateUserCertTemplate login now
    let r := registerUser users login
    match r.1 with
    | some _ => (RegisterResult.internalError "failed to save user", r.2)
    | none => (RegisterResult.success cert, r.2)

/-!
Helper lemmas.

Facts about `find?`, `upsertRow` and the single-secret `UpsertIfNewer` call,
shared by the claim theorems below.
-/

theorem find_congr {α : Type} (p q : α → Bool) {l : List α}
    (h : ∀ r ∈ l, p r = q r) : l.find? p = l.find? q := by
  induction l with
  | nil => rfl
  | cons a t ih =>
    have ha : p a = q a := h a (by simp)
    rw [List.find?_cons, List.find?_cons, ha]
    cases hq : q a
    · exact ih (fun r hr => h r (by simp [hr]))
    · rfl

theorem nodup_map_eq {α β : Type} {l : List α} {f : α → β}
    (h : (l.map f).Nodup) {x y : α} (hx : x ∈ l) (hy : y ∈ l) (hf : f x = f y) : x = y :=
  List.inj_on_of_nodup_map h hx hy hf

/-- Under `liveOrAbsent`, the unfiltered `(id, owner)` read and the
`deleted = false` read inside `UpsertIfNewer` agree. -/
theorem storedVersion_eq_live {db : DB} {u id : String} (h : liveOrAbsent db u id) :
    storedVersion db u id = lookupLiveVersion db u id := by
  unfold storedVersion lookupLiveVersion
  rw [find_congr _ (fun r => r.id == id && r.userLogin == u && !r.deleted)]
  intro r hr
  by_cases h1 : r.id = id
  · by_cases h2 : r.userLogin = u
    · have h3 := h r hr h1 h2
      simp [h1, h2, h3]
    · simp [h1, h2]
  · simp [h1]

theorem updRow_id (sec : Secret) (r : Row) : (updRow sec r).id = r.id := by
  unfold updRow; split <;> rfl

theorem map_updRow_eq_self {sec : Secret} {t : List Row}
    (h : ∀ r ∈ t, r.id ≠ sec.id) : t.map (updRow sec) = t := by
  induction t with
  | nil => rfl
  | cons a l ih =>
    have ha : updRow sec a = a := by
      unfold updRow; rw [if_neg (h a (by simp))]
    rw [List.map_cons, ha, ih (fun r hr => h r (by simp [hr]))]

theorem updRow_userLogin (sec : Secret) (r : Row) : (updRow sec r).userLogin = r.userLogin := by
  unfold updRow; split <;> rfl

/-- Reading `find?` over the result of the upsert write, for a predicate that holds
on the written row and fails on every row with a different id: it finds a row
carrying the incoming secret's version, live. -/
theorem upsertRow_find_self {db : DB} {u : String} {sec : Secret} (p : Row → Bool)
    (hpUpd : ∀ r : Row, r.id = sec.id → r.userLogin = u → p (updRow sec r) = true)
    (hpNew : p ⟨sec.id, u, sec.type, sec.data, sec.comment, sec.version, false⟩ = true)
    (hpOther : ∀ r : Row, r.id ≠ sec.id → p r = false)
    (hown : ∀ r ∈ db, r.id = sec.id → r.userLogin = u) :
    ∃ r', (upsertRow db u sec).find? p = some r' ∧ r'.version = sec.version ∧
      r'.id = sec.id ∧ r'.userLogin = u ∧ r'.deleted = false := by
  unfold upsertRow
  by_cases hany : db.any (fun r => r.id == sec.id) = true
  · rw [if_pos hany]
    induction db with
    | nil => simp at hany
    | cons a t ih =>
      by_cases ha : a.id = sec.id
      · have hau : a.userLogin = u := hown a (by simp) ha
        refine ⟨updRow sec a, ?_, ?_, ?_, ?_, ?_⟩
        · rw [List.map_cons, List.find?_cons, hpUpd a ha hau]
        · unfold updRow; rw [if_pos ha]
        · unfold updRow; rw [if_pos ha]; exact ha
        · unfold updRow; rw [if_pos ha]; exact hau
        · unfold updRow; rw [if_pos ha]
      · have hpa : p (updRow sec a) = false := by
          have : updRow sec a = a := by unfold updRow; rw [if_neg ha]
          rw [this]; exact hpOther a ha
        have hany' : t.any (fun r => r.id == sec.id) = true := by
          simp only [List.any_cons, Bool.or_eq_true] at hany
          rcases hany with h | h
          · exact absurd (by simpa using h) ha
          · exact h
        have hown' : ∀ r ∈ t, r.id = sec.id → r.userLogin = u :=
          fun r hr => hown r (by simp [hr])
        obtain ⟨r', hfind, hrest⟩ := ih hown' hany'
        refine ⟨r', ?_, hrest⟩
        rw [List.map_cons, List.find?_cons, hpa]
        exact hfind
  · rw [if_neg hany]
    have hnone : db.find? p = none := by
      rw [List.find?_eq_none]
      intro x hx
      have hxid : x.id ≠ sec.id := by
        intro hxe
        exact hany (by rw [List.any_eq_true]; exact ⟨x, hx, by simp [hxe]⟩)
      simp [hpOther x hxid]
    refine ⟨⟨sec.id, u, sec.type, sec.data, sec.comment, sec.version, false⟩,
      ?_, rfl, rfl, rfl, rfl⟩
    rw [List.find?_append, hnone, Option.none_or, List.find?_cons, hpNew]

/-- Reading `find?` over the result of the upsert write, for a predicate that never
holds on rows with the written id: the read is unchanged. -/
theorem upsertRow_find_ne {db : DB} {u : String} {sec : Secret} (p : Row → Bool)
    (hpId : ∀ r : Row, r.id = sec.id → p r = false)
    (hpNew : p ⟨sec.id, u, sec.type, sec.data, sec.comment, sec.version, false⟩ = false) :
    (upsertRow db u sec).find? p = db.find? p := by
  unfold upsertRow
  by_cases hany : db.any (fun r => r.id == sec.id) = true
  · rw [if_pos hany]
    induction db with
    | nil => rfl
    | cons a t ih =>
      by_cases ha : a.id = sec.id
      · have h1 : p (updRow sec a) = false := hpId _ (by rw [updRow_id]; exact ha)
        have h2 : p a = false := hpId a ha
        rw [List.map_cons, List.find?_cons, List.find?_cons, h1, h2]
        by_cases h3 : t.any (fun r => r.id == sec.id) = true
        · exact ih h3
        · rw [map_updRow_eq_self (fun r hr hre =>
            h3 (by rw [List.any_eq_true]; exact ⟨r, hr, by simp [hre]⟩))]
      · have h1 : updRow sec a = a := by unfold updRow; rw [if_neg ha]
        rw [List.map_cons, List.find?_cons, List.find?_cons, h1]
        cases hpa : p a
        · by_cases h3 : t.any (fun r => r.id == sec.id) = true
          · exact ih h3
          · rw [map_updRow_eq_self (fun r hr hre =>
              h3 (by rw [List.any_eq_true]; exact ⟨r, hr, by simp [hre]⟩))]
        · rfl
  · rw [if_neg hany, List.find?_append]
    have : List.find? p [⟨sec.id, u, sec.type, sec.data, sec.comment, sec.version, false⟩]
        = none := by
      rw [List.find?_eq_none]
      intro x hx
      simp only [List.mem_singleton] at hx
      subst hx
      simp [hpNew]
    rw [this, Option.or_none]

theorem storedVersion_upsertRow_self {db : DB} {u : String} {sec : Secret}
    (hown : ∀ r ∈ db, r.id = sec.id → r.userLogin = u) :
    storedVersion (upsertRow db u sec) u sec.id = some sec.version := by
  obtain ⟨r', hfind, hv, _, _, _⟩ := upsertRow_find_self
    (fun r => r.id == sec.id && r.userLogin == u)
    (fun r h1 h2 => by simp [updRow_id, updRow_userLogin, h1, h2])
    (by simp)
    (fun r h1 => by simp [h1])
    hown
  unfold storedVersion
  rw [hfind, Option.map_some']
  exact congrArg some hv

theorem lookupLiveVersion_upsertRow_self {db : DB} {u : String} {sec : Secret}
    (hown : ∀ r ∈ db, r.id = sec.id → r.userLogin = u) :
    lookupLiveVersion (upsertRow db u sec) u sec.id = some sec.version := by
  obtain ⟨r', hfind, hv, _, _, hd⟩ := upsertRow_find_self
    (fun r => r.id == sec.id && r.userLogin == u && !r.deleted)
    (fun r h1 h2 => by
      have hd' : (updRow sec r).deleted = false := by
        unfold updRow; rw [if_pos h1]
      simp [updRow_id, updRow_userLogin, h1, h2, hd'])
    (by simp)
    (fun r h1 => by simp [h1])
    hown
  unfold lookupLiveVersion
  rw [hfind, Option.map_some']
  exact congrArg some hv

theorem storedVersion_upsertRow_ne {db : DB} {u w : String} {sec : Secret} {id : String}
    (hne : id ≠ sec.id) :
    storedVersion (upsertRow db u sec) w id = storedVersion db w id := by
  unfold storedVersion
  have hne' : sec.id ≠ id := Ne.symm hne
  rw [upsertRow_find_ne _
    (fun r h1 => by
      have hf : (r.id == id) = false := beq_eq_false_iff_ne.mpr (by rw [h1]; exact hne')
      simp [hf])
    (by simp [hne'])]

theorem lookupLiveVersion_upsertRow_ne {db : DB} {u w : String} {sec : Secret} {id : String}
    (hne : id ≠ sec.id) :
    lookupLiveVersion (upsertRow db u sec) w id = lookupLiveVersion db w id := by
  unfold lookupLiveVersion
  have hne' : sec.id ≠ id := Ne.symm hne
  rw [upsertRow_find_ne _
    (fun r h1 => by
      have hf : (r.id == id) = false := beq_eq_false_iff_ne.mpr (by rw [h1]; exact hne')
      simp [hf])
    (by simp [hne'])]

theorem uniqueIds_upsertRow {db : DB} {u : String} {sec : Secret}
    (h : uniqueIds db) : uniqueIds (upsertRow db u sec) := by
  unfold upsertRow
  by_cases hany : db.any (fun r => r.id == sec.id) = true
  · rw [if_pos hany]
    unfold uniqueIds at *
    have : (db.map (updRow sec)).map (fun r => r.id) = db.map (fun r => r.id) := by
      rw [List.map_map]
      apply List.map_congr_left
      intro r _
      exact updRow_id sec r
    rw [this]
    exact h
  · rw [if_neg hany]
    unfold uniqueIds at *
    rw [List.map_append, List.nodup_append]
    refine ⟨h, by simp, ?_⟩
    intro x hx
    simp only [List.map_cons, List.map_nil, List.mem_singleton]
    intro hxe
    rw [List.mem_map] at hx
    obtain ⟨r, hr, hrid⟩ := hx
    exact hany (by rw [List.any_eq_true]; exact ⟨r, hr, by simp [hrid, hxe]⟩)

theorem liveOrAbsent_upsertRow {db : DB} {u : String} {sec : Secret} {id : String}
    (h : liveOrAbsent db u id) : liveOrAbsent (upsertRow db u sec) u id := by
  unfold upsertRow
  by_cases hany : db.any (fun r => r.id == sec.id) = true
  · rw [if_pos hany]
    intro r hr h1 h2
    rw [List.mem_map] at hr
    obtain ⟨r₀, hr₀, hup⟩ := hr
    by_cases h3 : r₀.id = sec.id
    · have : (updRow sec r₀).deleted = false := by unfold updRow; rw [if_pos h3]
      rw [← hup]; exact this
    · have : updRow sec r₀ = r₀ := by unfold updRow; rw [if_neg h3]
      rw [← hup, this]
      rw [← hup, this] at h1 h2
      exact h r₀ hr₀ h1 h2
  · rw [if_neg hany]
    intro r hr h1 h2
    rw [List.mem_append] at hr
    rcases hr with hr | hr
    · exact h r hr h1 h2
    · simp only [List.mem_singleton] at hr
      rw [hr]

/-- Ownership of a set of ids is preserved by the upsert write. -/
theorem own_upsertRow {db : DB} {u : String} (sec : Secret) (P : String → Prop)
    (h : ∀ r ∈ db, P r.id → r.userLogin = u) :
    ∀ r ∈ upsertRow db u sec, P r.id → r.userLogin = u := by
  unfold upsertRow
  by_cases hany : db.any (fun r => r.id == sec.id) = true
  · rw [if_pos hany]
    intro r hr hP
    rw [List.mem_map] at hr
    obtain ⟨r₀, hr₀, hup⟩ := hr
    rw [← hup, updRow_userLogin]
    apply h r₀ hr₀
    rw [← updRow_id sec r₀, hup]
    exact hP
  · rw [if_neg hany]
    intro r hr hP
    rw [List.mem_append] at hr
    rcases hr with hr | hr
    · exact h r hr hP
    · simp only [List.mem_singleton] at hr
      rw [hr]

theorem upsert1_skip {db : DB} {u : String} {s : Secret} {v : Int}
    (h : lookupLiveVersion db u s.id = some v) (hle : s.version ≤ v) :
    upsertIfNewer db u [s] = (db, [], [s.id]) := by
  unfold upsertIfNewer
  simp [List.foldl, upsertStep, h, hle]

theorem upsert1_write_lt {db : DB} {u : String} {s : Secret} {v : Int}
    (h : lookupLiveVersion db u s.id = some v) (hlt : v < s.version) :
    upsertIfNewer db u [s] = (upsertRow db u s, [s.id], []) := by
  unfold upsertIfNewer
  simp [List.foldl, upsertStep, h, not_le.mpr hlt]

theorem upsert1_write_none {db : DB} {u : String} {s : Secret}
    (h : lookupLiveVersion db u s.id = none) :
    upsertIfNewer db u [s] = (upsertRow db u s, [s.id], []) := by
  unfold upsertIfNewer
  simp [List.foldl, upsertStep, h]

theorem optVerLE_refl (o : Option Int) : optVerLE o o := by
  cases o <;> simp [optVerLE]

theorem optVerLE_trans {a b c : Option Int}
    (h1 : optVerLE a b) (h2 : optVerLE b c) : optVerLE a c := by
  cases a <;> cases b <;> cases c <;> (simp [optVerLE] at *; try omega)

/-- From a successful live read and primary-key uniqueness: every row with
that id belongs to the owner. -/
theorem own_of_lookupLive {db : DB} {u id : String} {v : Int}
    (hU : uniqueIds db) (h : lookupLiveVersion db u id = some v) :
    ∀ r ∈ db, r.id = id → r.userLogin = u := by
  unfold lookupLiveVersion at h
  obtain ⟨r₀, hfind, _⟩ := Option.map_eq_some'.mp h
  have hmem := List.mem_of_find?_eq_some hfind
  have hpred := List.find?_some hfind
  simp only [Bool.and_eq_true, beq_iff_eq, Bool.not_eq_true'] at hpred
  intro r hr hrid
  have : r = r₀ := nodup_map_eq hU hr hmem (by rw [hrid, hpred.1.1])
  rw [this]
  exact hpred.1.2

theorem uniqueIds_upsert1 {db : DB} {u : String} {s : Secret}
    (hU : uniqueIds db) : uniqueIds (upsertIfNewer db u [s]).1 := by
  cases hl : lookupLiveVersion db u s.id with
  | none => rw [upsert1_write_none hl]; exact uniqueIds_upsertRow hU
  | some v =>
    by_cases hle : s.version ≤ v
    · rw [upsert1_skip hl hle]; exact hU
    · rw [upsert1_write_lt hl (not_le.mp hle)]; exact uniqueIds_upsertRow hU

theorem liveOrAbsent_upsert1 {db : DB} {u : String} {s : Secret} {id : String}
    (hLA : liveOrAbsent db u id) : liveOrAbsent (upsertIfNewer db u [s]).1 u id := by
  cases hl : lookupLiveVersion db u s.id with
  | none => rw [upsert1_write_none hl]; exact liveOrAbsent_upsertRow hLA
  | some v =>
    by_cases hle : s.version ≤ v
    · rw [upsert1_skip hl hle]; exact hLA
    · rw [upsert1_write_lt hl (not_le.mp hle)]; exact liveOrAbsent_upsertRow hLA

/-- One `UpsertIfNewer` call on a live-or-absent id never lowers the stored
version. -/
theorem upsert1_mono {db : DB} {u id : String} {s : Secret}
    (hU : uniqueIds db) (hLA : liveOrAbsent db u id) (hid : s.id = id) :
    optVerLE (storedVersion db u id) (storedVersion (upsertIfNewer db u [s]).1 u id) := by
  cases hl : lookupLiveVersion db u id with
  | none =>
    have h0 : storedVersion db u id = none := by rw [storedVersion_eq_live hLA, hl]
    rw [h0]
    trivial
  | some v =>
    by_cases hle : s.version ≤ v
    · rw [upsert1_skip (by rw [hid]; exact hl) hle]
      exact optVerLE_refl _
    · push_neg at hle
      rw [upsert1_write_lt (by rw [hid]; exact hl) hle]
      have hown : ∀ r ∈ db, r.id = s.id → r.userLogin = u := by
        intro r hr hrid
        exact own_of_lookupLive hU hl r hr (hid ▸ hrid)
      have h1 : storedVersion (upsertRow db u s) u id = some s.version := by
        rw [← hid]
        exact storedVersion_upsertRow_self hown
      rw [h1, storedVersion_eq_live hLA, hl]
      exact le_of_lt hle

/-- A whole sequence of `UpsertIfNewer` calls on a live-or-absent id never
lowers the stored version. -/
theorem applyUpserts_mono {u id : String} : ∀ (calls : List Secret) (db : DB),
    uniqueIds db → liveOrAbsent db u id → (∀ s ∈ calls, s.id = id) →
    optVerLE (storedVersion db u id) (storedVersion (applyUpserts db u calls) u id)
  | [], db, _, _, _ => optVerLE_refl _
  | s :: t, db, hU, hLA, hids => by
    have h1 := upsert1_mono hU hLA (hids s (by simp))
    have h2 := applyUpserts_mono t (upsertIfNewer db u [s]).1
      (uniqueIds_upsert1 hU) (liveOrAbsent_upsert1 hLA)
      (fun s' hs' => hids s' (by simp [hs']))
    exact optVerLE_trans h1 h2

/-- After a batch, every id the batch wrote is guaranteed a live stored
version at least the incoming one: kept through the rest of the batch. -/
theorem upsertBatch_preserve {u : String} : ∀ (inc : List Secret) (db : DB)
    (upd skip : List String) (id : String) (v₀ : Int),
    (∀ r ∈ db, ∀ s ∈ inc, r.id = s.id → r.userLogin = u) →
    lookupLiveVersion db u id = some v₀ →
    ∃ v₁, v₀ ≤ v₁ ∧
      lookupLiveVersion (inc.foldl (upsertStep u) (db, upd, skip)).1 u id = some v₁
  | [], db, upd, skip, id, v₀, _, hl => ⟨v₀, le_refl _, hl⟩
  | s :: t, db, upd, skip, id, v₀, hown, hl => by
    rw [List.foldl_cons]
    have howns : ∀ r ∈ db, r.id = s.id → r.userLogin = u :=
      fun r hr h => hown r hr s (by simp) h
    have hownt : ∀ db₁ : DB, (∀ r ∈ db₁, (∃ s' ∈ t, r.id = s'.id) → r.userLogin = u) →
        ∀ r ∈ db₁, ∀ s' ∈ t, r.id = s'.id → r.userLogin = u :=
      fun db₁ h r hr s' hs' he => h r hr ⟨s', hs', he⟩
    cases hls : lookupLiveVersion db u s.id with
    | some v =>
      by_cases hle : s.version ≤ v
      · have hstep : upsertStep u (db, upd, skip) s = (db, upd, skip ++ [s.id]) := by
          simp [upsertStep, hls, hle]
        rw [hstep]
        exact upsertBatch_preserve t db upd (skip ++ [s.id]) id v₀
          (fun r hr s' hs' he => hown r hr s' (by simp [hs']) he) hl
      · have hstep : upsertStep u (db, upd, skip) s
            = (upsertRow db u s, upd ++ [s.id], skip) := by
          simp [upsertStep, hls, hle]
        rw [hstep]
        have hown' := own_upsertRow s (fun a => ∃ s' ∈ t, a = s'.id)
          (fun r hr ⟨s', hs', he⟩ => hown r hr s' (by simp [hs']) he)
        by_cases hid : id = s.id
        · have h1 : lookupLiveVersion (upsertRow db u s) u id = some s.version := by
            rw [hid]
            exact lookupLiveVersion_upsertRow_self howns
          obtain ⟨v₁, hv₁, hl₁⟩ := upsertBatch_preserve t (upsertRow db u s)
            (upd ++ [s.id]) skip id s.version (hownt _ hown') h1
          refine ⟨v₁, ?_, hl₁⟩
          have hv0 : v₀ = v := by
            rw [hid, hls] at hl
            exact (Option.some.inj hl).symm
          omega
        · have h1 : lookupLiveVersion (upsertRow db u s) u id = some v₀ := by
            rw [lookupLiveVersion_upsertRow_ne hid]; exact hl
          exact upsertBatch_preserve t (upsertRow db u s) (upd ++ [s.id]) skip id v₀
            (hownt _ hown') h1
    | none =>
      have hstep : upsertStep u (db, upd, skip) s
          = (upsertRow db u s, upd ++ [s.id], skip) := by
        simp [upsertStep, hls]
      rw [hstep]
      have hown' := own_upsertRow s (fun a => ∃ s' ∈ t, a = s'.id)
        (fun r hr ⟨s', hs', he⟩ => hown r hr s' (by simp [hs']) he)
      by_cases hid : id = s.id
      · rw [hid, hls] at hl
        exact absurd hl (by simp)
      · have h1 : lookupLiveVersion (upsertRow db u s) u id = some v₀ := by
          rw [lookupLiveVersion_upsertRow_ne hid]; exact hl
        exact upsertBatch_preserve t (upsertRow db u s) (upd ++ [s.id]) skip id v₀
          (hownt _ hown') h1

/-- After a batch of `UpsertIfNewer` writes, every processed secret's id has
a live stored version at least the incoming one. -/
theorem upsertBatch_after {u : String} : ∀ (inc : List Secret) (db : DB)
    (upd skip : List String),
    (∀ r ∈ db, ∀ s ∈ inc, r.id = s.id → r.userLogin = u) →
    ∀ s ∈ inc, ∃ v, s.version ≤ v ∧
      lookupLiveVersion (inc.foldl (upsertStep u) (db, upd, skip)).1 u s.id = some v
  | [], _, _, _, _, s, hs => absurd hs (by simp)
  | s :: t, db, upd, skip, hown, s', hs' => by
    rw [List.foldl_cons]
    have howns : ∀ r ∈ db, r.id = s.id → r.userLogin = u :=
      fun r hr h => hown r hr s (by simp) h
    have hownt : ∀ db₁ : DB, (∀ r ∈ db₁, (∃ x ∈ t, r.id = x.id) → r.userLogin = u) →
        ∀ r ∈ db₁, ∀ x ∈ t, r.id = x.id → r.userLogin = u :=
      fun db₁ h r hr x hx he => h r hr ⟨x, hx, he⟩
    have hown' : ∀ db₁ : DB, db₁ = upsertRow db u s →
        ∀ r ∈ db₁, ∀ x ∈ t, r.id = x.id → r.userLogin = u := by
      intro db₁ he
      subst he
      exact hownt _ (own_upsertRow s (fun a => ∃ x ∈ t, a = x.id)
        (fun r hr ⟨x, hx, hxe⟩ => hown r hr x (by simp [hx]) hxe))
    cases hls : lookupLiveVersion db u s.id with
    | some v =>
      by_cases hle : s.version ≤ v
      · have hstep : upsertStep u (db, upd, skip) s = (db, upd, skip ++ [s.id]) := by
          simp [upsertStep, hls, hle]
        rw [hstep]
        rcases List.mem_cons.mp hs' with he | hmem
        · subst he
          obtain ⟨v₁, hv₁, hl₁⟩ := upsertBatch_preserve t db upd (skip ++ [s'.id])
            s'.id v (fun r hr x hx hxe => hown r hr x (by simp [hx]) hxe) hls
          exact ⟨v₁, le_trans hle hv₁, hl₁⟩
        · exact upsertBatch_after t db upd (skip ++ [s.id])
            (fun r hr x hx hxe => hown r hr x (by simp [hx]) hxe) s' hmem
      · have hstep : upsertStep u (db, upd, skip) s
            = (upsertRow db u s, upd ++ [s.id], skip) := by
          simp [upsertStep, hls, hle]
        rw [hstep]
        rcases List.mem_cons.mp hs' with he | hmem
        · subst he
          have h1 : lookupLiveVersion (upsertRow db u s') u s'.id = some s'.version :=
            lookupLiveVersion_upsertRow_self howns
          obtain ⟨v₁, hv₁, hl₁⟩ := upsertBatch_preserve t (upsertRow db u s')
            (upd ++ [s'.id]) skip s'.id s'.version (hown' _ rfl) h1
          exact ⟨v₁, hv₁, hl₁⟩
        · exact upsertBatch_after t (upsertRow db u s) (upd ++ [s.id]) skip
            (hown' _ rfl) s' hmem
    | none =>
      have hstep : upsertStep u (db, upd, skip) s
          = (upsertRow db u s, upd ++ [s.id], skip) := by
        simp [upsertStep, hls]
      rw [hstep]
      rcases List.mem_cons.mp hs' with he | hmem
      · subst he
        have h1 : lookupLiveVersion (upsertRow db u s') u s'.id = some s'.version :=
          lookupLiveVersion_upsertRow_self howns
        obtain ⟨v₁, hv₁, hl₁⟩ := upsertBatch_preserve t (upsertRow db u s')
          (upd ++ [s'.id]) skip s'.id s'.version (hown' _ rfl) h1
        exact ⟨v₁, hv₁, hl₁⟩
      · exact upsertBatch_after t (upsertRow db u s) (upd ++ [s.id]) skip
          (hown' _ rfl) s' hmem

/-- A batch in which every secret already has a live stored version at least
its own is a pure no-op: everything is reported skipped, in order. -/
theorem upsertBatch_skip {u : String} : ∀ (inc : List Secret) (db : DB)
    (upd skip : List String),
    (∀ s ∈ inc, ∃ v, s.version ≤ v ∧ lookupLiveVersion db u s.id = some v) →
    inc.foldl (upsertStep u) (db, upd, skip)
      = (db, upd, skip ++ inc.map (fun s => s.id))
  | [], db, upd, skip, _ => by simp
  | s :: t, db, upd, skip, h => by
    obtain ⟨v, hv, hl⟩ := h s (by simp)
    rw [List.foldl_cons]
    have hstep : upsertStep u (db, upd, skip) s = (db, upd, skip ++ [s.id]) := by
      simp [upsertStep, hl, hv]
    rw [hstep, upsertBatch_skip t db upd (skip ++ [s.id])
      (fun s' hs' => h s' (by simp [hs']))]
    simp

/-- A batch of distinct ids, each strictly newer than whatever live version
is stored: everything is reported updated, in order. -/
theorem upsertBatch_fresh {u : String} : ∀ (inc : List Secret) (db : DB)
    (upd skip : List String),
    (∀ r ∈ db, ∀ s ∈ inc, r.id = s.id → r.userLogin = u) →
    (inc.map (fun s => s.id)).Nodup →
    (∀ s ∈ inc, ∀ v, lookupLiveVersion db u s.id = some v → v < s.version) →
    ∃ db', inc.foldl (upsertStep u) (db, upd, skip)
      = (db', upd ++ inc.map (fun s => s.id), skip)
  | [], db, upd, skip, _, _, _ => ⟨db, by simp⟩
  | s :: t, db, upd, skip, hown, hnd, hfresh => by
    rw [List.foldl_cons]
    have hstep : upsertStep u (db, upd, skip) s
        = (upsertRow db u s, upd ++ [s.id], skip) := by
      cases hls : lookupLiveVersion db u s.id with
      | none => simp [upsertStep, hls]
      | some v =>
        have := hfresh s (by simp) v hls
        simp [upsertStep, hls, not_le.mpr this]
    rw [hstep]
    simp only [List.map_cons, List.nodup_cons] at hnd
    have hids : ∀ x ∈ t, x.id ≠ s.id := by
      intro x hx he
      exact hnd.1 (by rw [List.mem_map]; exact ⟨x, hx, he⟩)
    have hown' : ∀ r ∈ upsertRow db u s, ∀ x ∈ t, r.id = x.id → r.userLogin = u := by
      intro r hr x hx he
      exact own_upsertRow s (fun a => ∃ x' ∈ t, a = x'.id)
        (fun r' hr' ⟨x', hx', hxe⟩ => hown r' hr' x' (by simp [hx']) hxe)
        r hr ⟨x, hx, he⟩
    have hfresh' : ∀ x ∈ t, ∀ v, lookupLiveVersion (upsertRow db u s) u x.id = some v
        → v < x.version := by
      intro x hx v hl
      rw [lookupLiveVersion_upsertRow_ne (hids x hx)] at hl
      exact hfresh x (by simp [hx]) v hl
    obtain ⟨db', hdb'⟩ := upsertBatch_fresh t (upsertRow db u s) (upd ++ [s.id]) skip
      hown' hnd.2 hfresh'
    refine ⟨db', ?_⟩
    rw [hdb']
    simp

/-- Running `Sync` on a batch with no tombstones: no delete pass runs, and the
result is assembled from `UpsertIfNewer` on the whole batch. -/
theorem Sync_all_live {db : DB} {u : String} {inc : List Secret}
    {cv : List (String × Int)} (hlive : ∀ s ∈ inc, s.deleted = false) :
    Sync db u inc cv =
      ((upsertIfNewer db u inc).1,
       ⟨getMaxVersion (upsertIfNewer db u inc).1 u,
        (upsertIfNewer db u inc).2.1,
        (upsertIfNewer db u inc).2.2,
        getNewerSecrets (upsertIfNewer db u inc).1 u cv⟩) := by
  have h1 : inc.filter (fun s => s.deleted) = [] := by
    rw [List.filter_eq_nil_iff]
    intro s hs
    simp [hlive s hs]
  have h2 : inc.filter (fun s => !s.deleted) = inc := by
    rw [List.filter_eq_self]
    intro s hs
    simp [hlive s hs]
  unfold Sync
  rw [h1, h2]
  cases inc with
  | nil => rfl
  | cons s t => rfl

theorem le_foldl_max : ∀ (l : List Int) (v : Int), v ≤ l.foldl max v
  | [], _ => le_refl _
  | a :: t, v => le_trans (le_max_left v a) (le_foldl_max t (max v a))

theorem mem_le_foldl_max : ∀ (l : List Int) (v x : Int), x ∈ l → x ≤ l.foldl max v
  | a :: t, v, x, hx => by
    rcases List.mem_cons.mp hx with he | hmem
    · subst he
      exact le_trans (le_max_right v x) (le_foldl_max t (max v x))
    · exact mem_le_foldl_max t (max v a) x hmem

theorem foldl_max_mem : ∀ (l : List Int) (v : Int), l.foldl max v = v ∨ l.foldl max v ∈ l
  | [], _ => Or.inl rfl
  | a :: t, v => by
    rcases foldl_max_mem t (max v a) with h | h
    · rcases max_choice v a with hm | hm
      · exact Or.inl (by rw [List.foldl_cons, h, hm])
      · exact Or.inr (by rw [List.foldl_cons, h, hm]; simp)
    · exact Or.inr (by rw [List.foldl_cons]; simp [h])

/-!
Claim theorems.
-/

/-- C1, counterexample to the claim as stated: a tombstoned row does NOT
participate in the version comparison (`UpsertIfNewer`'s check reads only
`deleted = false` rows). Against a stored tombstone `("u", "a")` at version
10, an incoming live write at version 5 is applied rather than skipped: the
skipped list is empty, the store changes, and the stored version drops from
10 to 5. -/
theorem C1_counterexample :
    storedVersion [⟨"a", "u", "t", "d", "c", 10, true⟩] "u" "a" = some 10
    ∧ storedVersion
        (upsertIfNewer [⟨"a", "u", "t", "d", "c", 10, true⟩] "u"
          [⟨"a", "t", "d2", "c2", 5, false⟩]).1 "u" "a" = some 5
    ∧ (upsertIfNewer [⟨"a", "u", "t", "d", "c", 10, true⟩] "u"
        [⟨"a", "t", "d2", "c2", 5, false⟩]).2.2 = []
    ∧ (upsertIfNewer [⟨"a", "u", "t", "d", "c", 10, true⟩] "u"
        [⟨"a", "t", "d2", "c2", 5, false⟩]).1 ≠ [⟨"a", "u", "t", "d", "c", 10, true⟩] := by
  decide

/-- C1 (amended): the version comparison in `UpsertIfNewer` consults live
rows only. As long as the `(owner, id)` row is live or absent — in
particular when no tombstone is ever stored for it — the stored version is
non-decreasing across any sequence of `UpsertIfNewer` calls, and a call
whose incoming version is at most the stored live version leaves the store
unchanged and reports the id as skipped. (With a tombstone present the
comparison is skipped entirely; see the counterexample.) -/
theorem C1_upsert_version_monotone_live (db : DB) (u id : String) (calls : List Secret)
    (hU : uniqueIds db) (hLA : liveOrAbsent db u id)
    (hids : ∀ s ∈ calls, s.id = id) :
    optVerLE (storedVersion db u id) (storedVersion (applyUpserts db u calls) u id)
    ∧ ∀ sec : Secret, sec.id = id → ∀ v, lookupLiveVersion db u id = some v →
        sec.version ≤ v → upsertIfNewer db u [sec] = (db, [], [id]) := by
  refine ⟨applyUpserts_mono calls db hU hLA hids, ?_⟩
  intro sec hsec v hl hle
  rw [← hsec] at hl
  rw [upsert1_skip hl hle, hsec]

theorem C1_upsert_version_monotone_live_witness :
    uniqueIds [⟨"a", "u", "t", "d", "c", 5, false⟩]
    ∧ liveOrAbsent [⟨"a", "u", "t", "d", "c", 5, false⟩] "u" "a"
    ∧ (∀ s ∈ [(⟨"a", "t", "d2", "c2", 7, false⟩ : Secret)], s.id = "a")
    ∧ (optVerLE (storedVersion [⟨"a", "u", "t", "d", "c", 5, false⟩] "u" "a")
        (storedVersion
          (applyUpserts [⟨"a", "u", "t", "d", "c", 5, false⟩] "u"
            [⟨"a", "t", "d2", "c2", 7, false⟩]) "u" "a")
      ∧ ∀ sec : Secret, sec.id = "a" → ∀ v,
          lookupLiveVersion [⟨"a", "u", "t", "d", "c", 5, false⟩] "u" "a" = some v →
          sec.version ≤ v →
          upsertIfNewer [⟨"a", "u", "t", "d", "c", 5, false⟩] "u" [sec]
            = ([⟨"a", "u", "t", "d", "c", 5, false⟩], [], ["a"])) :=
  ⟨by decide, by decide, by decide,
   C1_upsert_version_monotone_live [⟨"a", "u", "t", "d", "c", 5, false⟩] "u" "a"
     [⟨"a", "t", "d2", "c2", 7, false⟩] (by decide) (by decide) (by decide)⟩

/-- C2, counterexample to the claim as stated: a live resubmission whose
version EQUALS the tombstone's version does not leave the secret tombstoned
— it resurrects it (the tombstone is invisible to the version check), and
the id is reported updated. -/
theorem C2_counterexample :
    upsertIfNewer [⟨"a", "u", "t", "d", "c", 10, true⟩] "u"
        [⟨"a", "t", "d2", "c2", 10, false⟩]
      = ([⟨"a", "u", "t", "d2", "c2", 10, false⟩], ["a"], []) := by
  decide

/-- C2 (amended): a tombstoned secret resubmitted live becomes live again
with the incoming version, whatever that version is — strictly greater,
equal, or lower than the tombstone's. The tombstone's version is never
consulted: the write is unconditional and the id is reported updated. -/
theorem C2_tombstone_resubmit_resurrects (db : DB) (u : String) (sec : Secret) (r : Row)
    (hU : uniqueIds db)
    (hr : db.find? (fun x => x.id == sec.id && x.userLogin == u) = some r)
    (hdel : r.deleted = true) :
    upsertIfNewer db u [sec] = (upsertRow db u sec, [sec.id], [])
    ∧ lookupLiveVersion (upsertRow db u sec) u sec.id = some sec.version := by
  have hpred := List.find?_some hr
  have hmem := List.mem_of_find?_eq_some hr
  simp only [Bool.and_eq_true, beq_iff_eq] at hpred
  have hnone : lookupLiveVersion db u sec.id = none := by
    unfold lookupLiveVersion
    rw [List.find?_eq_none.mpr, Option.map_none']
    intro x hx
    by_cases hxid : x.id = sec.id
    · have : x = r := nodup_map_eq hU hx hmem (by rw [hxid, hpred.1])
      rw [this]
      simp [hpred.1, hpred.2, hdel]
    · simp [hxid]
  have hown : ∀ x ∈ db, x.id = sec.id → x.userLogin = u := by
    intro x hx hxid
    have : x = r := nodup_map_eq hU hx hmem (by rw [hxid, hpred.1])
    rw [this]
    exact hpred.2
  exact ⟨upsert1_write_none hnone, lookupLiveVersion_upsertRow_self hown⟩

theorem C2_tombstone_resubmit_resurrects_witness :
    uniqueIds [⟨"a", "u", "t", "d", "c", 10, true⟩]
    ∧ List.find? (fun x => x.id == "a" && x.userLogin == "u")
        [(⟨"a", "u", "t", "d", "c", 10, true⟩ : Row)]
        = some ⟨"a", "u", "t", "d", "c", 10, true⟩
    ∧ (⟨"a", "u", "t", "d", "c", 10, true⟩ : Row).deleted = true
    ∧ (upsertIfNewer [⟨"a", "u", "t", "d", "c", 10, true⟩] "u"
          [⟨"a", "t", "d2", "c2", 4, false⟩]
        = (upsertRow [⟨"a", "u", "t", "d", "c", 10, true⟩] "u"
            ⟨"a", "t", "d2", "c2", 4, false⟩, ["a"], [])
      ∧ lookupLiveVersion
          (upsertRow [⟨"a", "u", "t", "d", "c", 10, true⟩] "u"
            ⟨"a", "t", "d2", "c2", 4, false⟩) "u" "a" = some 4) :=
  ⟨by decide, by decide, by decide,
   C2_tombstone_resubmit_resurrects [⟨"a", "u", "t", "d", "c", 10, true⟩] "u"
     ⟨"a", "t", "d2", "c2", 4, false⟩ ⟨"a", "u", "t", "d", "c", 10, true⟩
     (by decide) (by decide) (by decide)⟩

/-- C3, counterexample to the claim as stated: `GetMaxVersion` filters
`deleted = false`, so for an owner whose only secret is a tombstone at
version 7 it returns 0, not the highest version across ALL secrets
including tombstoned ones (7). -/
theorem C3_counterexample :
    getMaxVersion [⟨"a", "u", "t", "d", "c", 7, true⟩] "u" = 0
    ∧ getMaxVersion [⟨"a", "u", "t", "d", "c", 7, true⟩] "u" ≠ 7 := by
  decide

/-- C3 (amended): `GetMaxVersion` returns the highest version across the
owner's LIVE secrets only — an upper bound on live versions that is 0 or
attained by a live row, hence 0 when the owner has no live secrets (in
particular when it has none at all) — and `Sync` computes its returned
`version` with `GetMaxVersion` on the store as left after all of the
request's writes. -/
theorem C3_maxVersion_live (db : DB) (u : String) (inc : List Secret)
    (cv : List (String × Int)) :
    (∀ r ∈ liveRows db u, r.version ≤ getMaxVersion db u)
    ∧ (getMaxVersion db u = 0 ∨ ∃ r ∈ liveRows db u, r.version = getMaxVersion db u)
    ∧ (Sync db u inc cv).2.version = getMaxVersion (Sync db u inc cv).1 u := by
  refine ⟨?_, ?_, rfl⟩
  · intro r hr
    unfold getMaxVersion
    have hm : r.version ∈ (liveRows db u).map (fun x => x.version) :=
      List.mem_map_of_mem _ hr
    cases he : (liveRows db u).map (fun x => x.version) with
    | nil => rw [he] at hm; exact absurd hm (by simp)
    | cons v vs =>
      rw [he] at hm
      rcases List.mem_cons.mp hm with h1 | h1
      · rw [h1]
        exact le_foldl_max vs v
      · exact mem_le_foldl_max vs v _ h1
  · unfold getMaxVersion
    cases he : (liveRows db u).map (fun x => x.version) with
    | nil => exact Or.inl rfl
    | cons v vs =>
      right
      have hvm : vs.foldl max v ∈ (liveRows db u).map (fun x => x.version) := by
        rw [he]
        rcases foldl_max_mem vs v with h | h
        · rw [h]; simp
        · simp [h]
      rw [List.mem_map] at hvm
      obtain ⟨r, hr, hv⟩ := hvm
      exact ⟨r, hr, hv⟩

/-- C4, counterexample to the claim as stated: `GetNewerSecrets` filters
`deleted = false`, so with an empty known-versions map it returns the
owner's live secrets only — the tombstone (id "b") is NOT returned,
although the claim requires every tombstone to be. -/
theorem C4_counterexample :
    getNewerSecrets
        [⟨"a", "u", "t", "d", "c", 3, false⟩, ⟨"b", "u", "t", "d", "c", 7, true⟩] "u" []
      = [⟨"a", "t", "d", "c", 3, false⟩] := by
  decide

/-- C4 (amended): with an empty known-versions map `GetNewerSecrets` returns
exactly the owner's live secrets (what `GetSecretsByUser` returns), not the
tombstones; in general a secret is returned iff it comes from a live row of
the owner whose version exceeds every version the caller claims to know for
that id (vacuously, when the caller does not mention the id). -/
theorem C4_newerThan_live_only (db : DB) (u : String) (kv : List (String × Int))
    (s : Secret) :
    getNewerSecrets db u [] = getSecretsByUser db u
    ∧ (s ∈ getNewerSecrets db u kv ↔
        ∃ r ∈ db, r.userLogin = u ∧ r.deleted = false ∧ toSecret r = s ∧
          ∀ cv, lookupVer kv r.id = some cv → cv < r.version) := by
  constructor
  · unfold getNewerSecrets getSecretsByUser
    rw [List.filter_eq_self.mpr]
    intro r _
    rfl
  · unfold getNewerSecrets
    rw [List.mem_map]
    constructor
    · rintro ⟨r, hr, hts⟩
      rw [List.mem_filter] at hr
      obtain ⟨hlive, hpred⟩ := hr
      unfold liveRows at hlive
      rw [List.mem_filter] at hlive
      obtain ⟨hmem, hl2⟩ := hlive
      simp only [Bool.and_eq_true, beq_iff_eq, Bool.not_eq_true'] at hl2
      refine ⟨r, hmem, hl2.1, hl2.2, hts, ?_⟩
      intro cv hcv
      rw [hcv] at hpred
      simpa using hpred
    · rintro ⟨r, hmem, hu, hd, hts, hcv⟩
      refine ⟨r, ?_, hts⟩
      rw [List.mem_filter]
      refine ⟨?_, ?_⟩
      · unfold liveRows
        rw [List.mem_filter]
        exact ⟨hmem, by simp [hu, hd]⟩
      · cases hlv : lookupVer kv r.id with
        | none => simp [hlv]
        | some cv => simp [hlv, hcv cv hlv]

/-- C5, counterexample to the claim as stated, in both halves. First half:
`Sync` is NOT guaranteed to report every incoming id as updated on the first
call — when the store already holds a strictly newer live version (here 10
against an incoming 5), the first call already reports the id as skipped.
Second half: the second call is NOT guaranteed to report the ids as skipped
— `secrets.id` is the table's global primary key, so when another owner's
live row shares an incoming id, the per-owner version check
(`WHERE id = $1 AND user_login = $2 AND deleted = false`) misses it on both
calls, the `ON CONFLICT (id)` write lands on the foreign row (keeping its
`user_login`), and BOTH calls report the id as updated, the second one too. -/
theorem C5_counterexample :
    ((Sync [⟨"a", "u", "t", "d", "c", 10, false⟩] "u"
        [⟨"a", "t", "d2", "c2", 5, false⟩] []).2.updated = []
      ∧ (Sync [⟨"a", "u", "t", "d", "c", 10, false⟩] "u"
          [⟨"a", "t", "d2", "c2", 5, false⟩] []).2.skipped = ["a"])
    ∧ ((Sync (Sync [⟨"x", "other", "t", "d", "c", 100, false⟩] "u"
          [⟨"x", "t", "d2", "c2", 5, false⟩] []).1 "u"
          [⟨"x", "t", "d2", "c2", 5, false⟩] []).2.updated = ["x"]
      ∧ (Sync (Sync [⟨"x", "other", "t", "d", "c", 100, false⟩] "u"
          [⟨"x", "t", "d2", "c2", 5, false⟩] []).1 "u"
          [⟨"x", "t", "d2", "c2", 5, false⟩] []).2.skipped = []) := by
  decide

/-- C5 (amended): for an incoming set of live secrets (tombstones go through
the delete pass and appear in neither list), and provided every stored row
sharing an incoming id belongs to the syncing owner — `secrets.id` is the
global primary key, so a foreign owner's row with the same id defeats the
per-owner version check and both calls report the id updated (see the
counterexample) — a second `Sync` with the same incoming set and no
interleaved writer reports exactly the incoming ids as skipped, updates
nothing, and leaves the store untouched; the first call reports exactly the
incoming ids as updated when additionally the ids are distinct and each
incoming version is strictly newer than any live version the store already
holds for it (the claim's implicit fresh-write scenario). -/
theorem C5_sync_idempotent (db : DB) (u : String) (inc : List Secret)
    (cv cv' : List (String × Int))
    (hlive : ∀ s ∈ inc, s.deleted = false)
    (hown : ∀ r ∈ db, ∀ s ∈ inc, r.id = s.id → r.userLogin = u) :
    (Sync (Sync db u inc cv).1 u inc cv').1 = (Sync db u inc cv).1
    ∧ (Sync (Sync db u inc cv).1 u inc cv').2.updated = []
    ∧ (Sync (Sync db u inc cv).1 u inc cv').2.skipped = inc.map (fun s => s.id)
    ∧ ((inc.map (fun s => s.id)).Nodup →
        (∀ s ∈ inc, ∀ v, lookupLiveVersion db u s.id = some v → v < s.version) →
        (Sync db u inc cv).2.updated = inc.map (fun s => s.id)
        ∧ (Sync db u inc cv).2.skipped = []) := by
  have hU2 : upsertIfNewer (upsertIfNewer db u inc).1 u inc
      = ((upsertIfNewer db u inc).1, [], inc.map (fun s => s.id)) := by
    have hskip := upsertBatch_skip inc (upsertIfNewer db u inc).1 [] []
      (fun s hs => upsertBatch_after inc db [] [] hown s hs)
    unfold upsertIfNewer at *
    simpa using hskip
  have e1 : (Sync db u inc cv).1 = (upsertIfNewer db u inc).1 := by
    rw [Sync_all_live hlive]
  refine ⟨?_, ?_, ?_, ?_⟩
  · rw [e1, Sync_all_live hlive, hU2]
  · rw [e1, Sync_all_live hlive, hU2]
  · rw [e1, Sync_all_live hlive, hU2]
  · intro hnd hfresh
    obtain ⟨db', hdb'⟩ := upsertBatch_fresh inc db [] [] hown hnd hfresh
    have hfr : upsertIfNewer db u inc = (db', inc.map (fun s => s.id), []) := by
      unfold upsertIfNewer
      rw [hdb']
      simp
    rw [Sync_all_live hlive, hfr]
    exact ⟨rfl, rfl⟩

theorem C5_sync_idempotent_witness :
    (∀ s ∈ [(⟨"a", "t", "d", "c", 5, false⟩ : Secret)], s.deleted = false)
    ∧ (∀ r ∈ ([] : DB), ∀ s ∈ [(⟨"a", "t", "d", "c", 5, false⟩ : Secret)],
        r.id = s.id → r.userLogin = "u")
    ∧ ((Sync (Sync [] "u" [⟨"a", "t", "d", "c", 5, false⟩] []).1 "u"
          [⟨"a", "t", "d", "c", 5, false⟩] []).1
        = (Sync [] "u" [⟨"a", "t", "d", "c", 5, false⟩] []).1
      ∧ (Sync (Sync [] "u" [⟨"a", "t", "d", "c", 5, false⟩] []).1 "u"
          [⟨"a", "t", "d", "c", 5, false⟩] []).2.updated = []
      ∧ (Sync (Sync [] "u" [⟨"a", "t", "d", "c", 5, false⟩] []).1 "u"
          [⟨"a", "t", "d", "c", 5, false⟩] []).2.skipped
        = List.map (fun s => s.id) [(⟨"a", "t", "d", "c", 5, false⟩ : Secret)]
      ∧ ((List.map (fun s => s.id) [(⟨"a", "t", "d", "c", 5, false⟩ : Secret)]).Nodup →
          (∀ s ∈ [(⟨"a", "t", "d", "c", 5, false⟩ : Secret)], ∀ v,
            lookupLiveVersion [] "u" s.id = some v → v < s.version) →
          (Sync [] "u" [⟨"a", "t", "d", "c", 5, false⟩] []).2.updated
            = List.map (fun s => s.id) [(⟨"a", "t", "d", "c", 5, false⟩ : Secret)]
          ∧ (Sync [] "u" [⟨"a", "t", "d", "c", 5, false⟩] []).2.skipped = [])) :=
  ⟨by decide, by decide,
   C5_sync_idempotent [] "u" [⟨"a", "t", "d", "c", 5, false⟩] [] []
     (by decide) (by decide)⟩

/-- C6: on any path other than `/api/register`, `CertAuth` answers a request
with no TLS state or an empty peer-certificate list with the 401
authentication error — whatever the downstream handler is, so the handler is
never consulted — and otherwise invokes the downstream handler exactly once,
on the request whose context carries the first peer certificate's CN, which
`GetUserIDFromContext` then reads back as the authenticated identity. -/
theorem C6_certAuth {β : Type} (next : Request → β) (r : Request)
    (h : r.path ≠ "/api/register") :
    ((r.tls = none ∨ r.tls = some []) →
        certAuth next r = Sum.inl (401, "no client certificate provided"))
    ∧ (∀ c cs, r.tls = some (c :: cs) →
        certAuth next r = Sum.inr (next { r with ctxUser := some c.commonName })
        ∧ getUserIDFromContext (some c.commonName) = c.commonName) := by
  constructor
  · intro htls
    unfold certAuth
    rw [if_neg h]
    rcases htls with h1 | h1 <;> rw [h1]
  · intro c cs htls
    unfold certAuth
    rw [if_neg h, htls]
    exact ⟨rfl, rfl⟩

theorem C6_certAuth_witness :
    ((⟨"/api/sync", none, none⟩ : Request).path ≠ "/api/register")
    ∧ ((((⟨"/api/sync", none, none⟩ : Request).tls = none
          ∨ (⟨"/api/sync", none, none⟩ : Request).tls = some []) →
        certAuth (fun _ => true) ⟨"/api/sync", none, none⟩
          = Sum.inl (401, "no client certificate provided"))
      ∧ (∀ c cs, (⟨"/api/sync", none, none⟩ : Request).tls = some (c :: cs) →
          certAuth (fun _ => true) ⟨"/api/sync", none, none⟩
            = Sum.inr true
          ∧ getUserIDFromContext (some c.commonName) = c.commonName)) :=
  ⟨by decide, C6_certAuth (fun _ => true) ⟨"/api/sync", none, none⟩ (by decide)⟩

/-- C7, counterexample to the claim as stated: the leaf certificate's
`ExtKeyUsage` is `[ClientAuth]` only — server TLS authentication is NOT
permitted, contrary to the claim. -/
theorem C7_counterexample :
    ExtKeyUsage.serverAuth ∉ (generateUserCertTemplate "alice" 0).extKeyUsage
    ∧ (generateUserCertTemplate "alice" 0).extKeyUsage = [ExtKeyUsage.clientAuth] := by
  decide

/-- C7 (amended): every leaf issued by `GenerateUserCertificate` carries the
login as its subject CN and a validity window of 365 days (plus the one
minute of backdating), but its `ExtKeyUsage` permits client TLS
authentication only, not server authentication. -/
theorem C7_leaf_certificate (login : String) (now : Int) :
    (generateUserCertTemplate login now).commonName = login
    ∧ (generateUserCertTemplate login now).notAfter
        - (generateUserCertTemplate login now).notBefore = 365 * 24 * 60 * 60 + 60
    ∧ ExtKeyUsage.clientAuth ∈ (generateUserCertTemplate login now).extKeyUsage
    ∧ ExtKeyUsage.serverAuth ∉ (generateUserCertTemplate login now).extKeyUsage := by
  refine ⟨rfl, ?_, by simp [generateUserCertTemplate], by simp [generateUserCertTemplate]⟩
  unfold generateUserCertTemplate
  ring

theorem b64chr_roundtrip : ∀ s : Nat, s < 64 → b64chrDec (b64chr s) = some s := by
  decide

theorem b64chr_ne_pad : ∀ s : Nat, s < 64 → b64chr s ≠ 61 := by
  decide

/-- Base64 round-trip over byte lists: decoding an encoding recovers the
bytes exactly. -/
theorem b64_roundtrip : ∀ l : List Nat, (∀ b ∈ l, b < 256) →
    b64decode (b64encode l) = some l
  | [], _ => rfl
  | [a], h => by
    have ha : a < 256 := h a (by simp)
    have h1 : a / 4 < 64 := by omega
    have h2 : a % 4 * 16 < 64 := by omega
    have e1 := b64chr_roundtrip _ h1
    have e2 := b64chr_roundtrip _ h2
    simp [b64encode, b64decode, e1, e2]
    omega
  | [a, b], h => by
    have ha : a < 256 := h a (by simp)
    have hb : b < 256 := h b (by simp)
    have h1 : a / 4 < 64 := by omega
    have h2 : a % 4 * 16 + b / 16 < 64 := by omega
    have h3 : b % 16 * 4 < 64 := by omega
    have e1 := b64chr_roundtrip _ h1
    have e2 := b64chr_roundtrip _ h2
    have e3 := b64chr_roundtrip _ h3
    simp [b64encode, b64decode, b64chr_ne_pad _ h3, e1, e2, e3]
    omega
  | a :: b :: c :: rest, h => by
    have ha : a < 256 := h a (by simp)
    have hb : b < 256 := h b (by simp)
    have hc : c < 256 := h c (by simp)
    have h1 : a / 4 < 64 := by omega
    have h2 : a % 4 * 16 + b / 16 < 64 := by omega
    have h3 : b % 16 * 4 + c / 64 < 64 := by omega
    have h4 : c % 64 < 64 := by omega
    have e1 := b64chr_roundtrip _ h1
    have e2 := b64chr_roundtrip _ h2
    have e3 := b64chr_roundtrip _ h3
    have e4 := b64chr_roundtrip _ h4
    have ih := b64_roundtrip rest (fun x hx => h x (by simp [hx]))
    simp [b64encode, b64decode, b64chr_ne_pad _ h3, b64chr_ne_pad _ h4,
      e1, e2, e3, e4, ih]
    omega

/-- The edited entry, rendered by `List`, shows the new plaintext. -/
theorem editLoop_roundtrip {idx : List String} {id : String} {newData : List Nat}
    {newComment : String} {A : AEAD} {nonce : List Nat} {now : Int}
    (hn : nonce.length = A.nonceSize)
    (hopen : A.Open nonce (A.Seal nonce newData) = some newData)
    (hbytes : ∀ b ∈ nonce ++ A.Seal nonce newData, b < 256) :
    ∀ (l secs : List CSecret),
      editLoop idx id newData newComment A nonce now l = some secs →
      ∃ ty, ListEntry.ok id ty newComment newData now
        ∈ secs.filterMap (renderSecret idx A)
  | [], _, he => by simp [editLoop] at he
  | sec :: rest, secs, he => by
    rw [editLoop] at he
    by_cases hcond : sec.id ≠ id ∨ sec.deleted = true ∨ deletedLookup idx id = true
    · rw [if_pos hcond] at he
      obtain ⟨t', ht', hsecs⟩ := Option.map_eq_some'.mp he
      obtain ⟨ty, hty⟩ := editLoop_roundtrip hn hopen hbytes rest t' ht'
      rw [List.mem_filterMap] at hty
      obtain ⟨x, hx, hrx⟩ := hty
      refine ⟨ty, ?_⟩
      rw [← hsecs, List.mem_filterMap]
      exact ⟨x, by simp [hx], hrx⟩
    · rw [if_neg hcond] at he
      push_neg at hcond
      obtain ⟨hid, hdel, hlk⟩ := hcond
      refine ⟨sec.type, ?_⟩
      have hrender : renderSecret idx A
          ({ sec with
              data := b64encode (nonce ++ A.Seal nonce newData)
              comment := newComment
              version := now }) = some (ListEntry.ok id sec.type newComment newData now) := by
        have hlen : ¬ (nonce ++ A.Seal nonce newData).length < A.nonceSize := by
          rw [List.length_append, hn]
          omega
        have htake : (nonce ++ A.Seal nonce newData).take A.nonceSize = nonce := by
          rw [← hn]
          exact List.take_left nonce _
        have hdrop : (nonce ++ A.Seal nonce newData).drop A.nonceSize
            = A.Seal nonce newData := by
          rw [← hn]
          exact List.drop_left nonce _
        unfold renderSecret
        simp only [hid, b64_roundtrip _ hbytes, htake, hdrop, hopen, hlen,
          if_false, if_neg hlen]
        rw [if_neg (by simp [hdel, hlk])]
      rw [← Option.some.inj he, List.filterMap_cons, hrender]
      simp

/-- C8: for a secret present and live in the local cache, `Edit` followed by
`List` shows exactly the plaintext that was written — for any byte content,
empty included — given an AEAD whose `Open` inverts its `Seal` (the
`cipher.AEAD` contract) and a nonce of the advertised size. -/
theorem C8_edit_list_roundtrip (ls ls' : LocalStorage) (A : AEAD)
    (nonce newData : List Nat) (id newComment : String) (now : Int)
    (hn : nonce.length = A.nonceSize)
    (hopen : A.Open nonce (A.Seal nonce newData) = some newData)
    (hbytes : ∀ b ∈ nonce ++ A.Seal nonce newData, b < 256)
    (hedit : ls.Edit id newData newComment A nonce now = some ls') :
    ∃ ty, ListEntry.ok id ty newComment newData now ∈ ls'.list A := by
  unfold LocalStorage.Edit at hedit
  obtain ⟨secs, hsecs, hls'⟩ := Option.map_eq_some'.mp hedit
  obtain ⟨ty, hty⟩ := editLoop_roundtrip hn hopen hbytes ls.secrets secs hsecs
  refine ⟨ty, ?_⟩
  rw [← hls']
  exact hty

theorem C8_edit_list_roundtrip_witness :
    ([7, 7] : List Nat).length = (2 : Nat)
    ∧ (some [] : Option (List Nat)) = some []
    ∧ (∀ b ∈ ([7, 7] ++ [] : List Nat), b < 256)
    ∧ LocalStorage.Edit ⟨[⟨"1", "x", [], "old", 1, false⟩], 1, []⟩ "1" [] "new"
        ⟨2, fun _ m => m, fun _ c => some c⟩ [7, 7] 5
      = some ⟨[⟨"1", "x", [66, 119, 99, 61], "new", 5, false⟩], 1, []⟩
    ∧ ∃ ty, ListEntry.ok "1" ty "new" [] 5
        ∈ LocalStorage.list ⟨[⟨"1", "x", [66, 119, 99, 61], "new", 5, false⟩], 1, []⟩
            ⟨2, fun _ m => m, fun _ c => some c⟩ :=
  ⟨rfl, rfl, by decide, by rfl,
   C8_edit_list_roundtrip ⟨[⟨"1", "x", [], "old", 1, false⟩], 1, []⟩
     ⟨[⟨"1", "x", [66, 119, 99, 61], "new", 5, false⟩], 1, []⟩
     ⟨2, fun _ m => m, fun _ c => some c⟩ [7, 7] [] "1" "new" 5
     rfl rfl (by decide) (by rfl)⟩

/-- C9: enrollment of an already-taken login answers 409 conflict before any
certificate work, leaving the user table unchanged and carrying no
certificate in the response; enrollment of an unused login (with the CA
loadable) registers the login and returns a certificate whose subject CN is
that login. -/
theorem C9_register (users : List String) (login : String) (now : Int)
    (hne : login ≠ "") :
    (login ∈ users → register users login true now = (RegisterResult.conflict, users))
    ∧ (login ∉ users →
        register users login true now
          = (RegisterResult.success (generateUserCertTemplate login now), users ++ [login])
        ∧ (generateUserCertTemplate login now).commonName = login) := by
  constructor
  · intro hmem
    unfold register
    rw [if_neg hne, if_pos (by unfold userExists; simpa using hmem)]
  · intro hmem
    refine ⟨?_, rfl⟩
    unfold register
    rw [if_neg hne, if_neg (by
      unfold userExists
      simpa using hmem)]
    unfold registerUser usersInsert
    rw [if_neg (by trivial)]
    rw [if_neg (by simpa using hmem)]
    rfl

theorem C9_register_witness :
    (("alice" : String) ≠ "")
    ∧ (("alice" : String) ∈ ["alice"] →
        register ["alice"] "alice" true 0 = (RegisterResult.conflict, ["alice"]))
    ∧ (("alice" : String) ∉ ["alice"] →
        register ["alice"] "alice" true 0
          = (RegisterResult.success (generateUserCertTemplate "alice" 0), ["alice"] ++ ["alice"])
        ∧ (generateUserCertTemplate "alice" 0).commonName = "alice") :=
  ⟨by decide,
   (C9_register ["alice"] "alice" 0 (by decide)).1,
   (C9_register ["alice"] "alice" 0 (by decide)).2⟩

/-- C10: the repository-level `RegisterUser` swallows the duplicate-key
(`23505`) violation and reports success; hence it reports success for any
login against any user table — twice in a row included, the second insert
hitting the primary-key conflict — and nothing at the repository level
rejects a duplicate login: only the handler's prior `UserExists` check does
(see the conflict branch proved for C9). -/
theorem C10_registerUser_swallows_duplicate (users : List String) (login : String) :
    registerUserErr (ExecResult.pgError "23505") = none
    ∧ (login ∈ users → (usersInsert users login).1 = ExecResult.pgError "23505")
    ∧ (registerUser users login).1 = none
    ∧ (registerUser (registerUser users login).2 login).1 = none := by
  refine ⟨rfl, ?_, ?_, ?_⟩
  · intro hmem
    unfold usersInsert
    rw [if_pos (by simpa using hmem)]
  · unfold registerUser usersInsert registerUserErr
    by_cases hmem : users.contains login = true
    · rw [if_pos hmem]
      simp
    · rw [if_neg hmem]
  · unfold registerUser usersInsert registerUserErr
    by_cases hmem : users.contains login = true
    · rw [if_pos hmem]
      simp only []
      rw [if_pos hmem]
      simp
    · rw [if_neg hmem]
      simp only []
      rw [if_pos (by simp)]
      simp

-- Sanity checks on concrete inputs (mirroring the repository's own tests).
example :
    upsertIfNewer [⟨"s1", "u1", "t", "d", "c", 6, false⟩] "u1" [⟨"s1", "t", "d", "c", 5, false⟩]
      = ([⟨"s1", "u1", "t", "d", "c", 6, false⟩], [], ["s1"]) := by decide

example :
    upsertIfNewer [] "u2" [⟨"s1", "t", "d", "c", 10, false⟩]
      = ([⟨"s1", "u2", "t", "d", "c", 10, false⟩], ["s1"], []) := by decide

example : getMaxVersion [⟨"a", "u", "t", "d", "c", 7, false⟩] "u" = 7 := by decide

example : getMaxVersion ([] : DB) "u" = 0 := by decide
